import Mathlib

/-!
Verification of the Rescue duplex sponge gadget (src/src/rescue/constraints.rs)
and its canonicalization layer (src/src/constraints/absorbable.rs).

The R1CS gadget computes, at the value level, ordinary field arithmetic over a
prime field; we embed that value semantics over `ZMod P`.  Stateful operations
are embedded as functions returning the new state together with the number of
calls to `permute` they performed (the observable cost the specification talks
about).  Self-recursive helpers from the source (`absorb_internal`,
`squeeze_internal`) recurse on a strictly shrinking input; we realize them with
a structural fuel argument (always sufficient, proved via fuel-irrelevance
lemmas) so that every definition is executable and kernel-reducible.
-/

namespace Rescue

/-- Duplex sponge mode (`DuplexSpongeMode` in the crate root, used by the
sponge in src/src/rescue/constraints.rs): either absorbing, carrying the index
where the next absorbed element is folded in, or squeezing, carrying the index
where the next output element is read. -/
inductive DuplexSpongeMode where
  | Absorbing : ℕ → DuplexSpongeMode
  | Squeezing : ℕ → DuplexSpongeMode
deriving DecidableEq, Repr

/-- The cursor index carried by a duplex mode. -/
def DuplexSpongeMode.index : DuplexSpongeMode → ℕ
  | .Absorbing i => i
  | .Squeezing i => i

/-- Rescue sponge parameters (`RescueSpongeParameters`), over the prime field
`ZMod P`.  The S-box exponents `alpha`/`invalpha` are big integers in the
source; their value-level effect is exponentiation by a natural number. -/
structure RescueSpongeParameters (P : ℕ) where
  rate : ℕ
  capacity : ℕ
  rounds : ℕ
  alpha : ℕ
  invalpha : ℕ
  initial_constant : List (ZMod P)
  constants_matrix : List (List (ZMod P))
  constants_constant : List (ZMod P)
  mds : List (List (ZMod P))

/-- The sponge gadget state (`RescueSpongeVar`): the state vector and the
duplex mode.  The constraint-system handle has no value-level content. -/
structure RescueSpongeVar (P : ℕ) where
  state : List (ZMod P)
  mode : DuplexSpongeMode

variable {P : ℕ}

/-- Row `i` of the in-place affine update `target := M * v + c` as computed by
the inner loops of `permute` (constraints.rs:57-85): zero the entry, add
`M[i][j] * v[j]` for `j` in `0..n`, then add `c[i]`. -/
def matRowAffine (n : ℕ) (M : List (List (ZMod P))) (v c : List (ZMod P)) (i : ℕ) : ZMod P :=
  ((List.range n).map fun j => (M.getD i []).getD j 0 * v.getD j 0).sum + c.getD i 0

/-- The affine update `M * v + c` over all rows `0..n`. -/
def matAffine (n : ℕ) (M : List (List (ZMod P))) (v c : List (ZMod P)) : List (ZMod P) :=
  (List.range n).map (matRowAffine n M v c)

/-- One iteration of the round loop of `permute` (constraints.rs:44-86) acting
on the triple (key_injection, key_state, state): S-box layer with exponent
`invalpha` for even `r` and `alpha` for odd `r`, then the three affine
updates in order. -/
def permuteRound (pp : RescueSpongeParameters P) (n : ℕ)
    (acc : List (ZMod P) × List (ZMod P) × List (ZMod P)) (r : ℕ) :
    List (ZMod P) × List (ZMod P) × List (ZMod P) :=
  let e := if r % 2 = 0 then pp.invalpha else pp.alpha
  let ks1 := (List.range n).map fun i => acc.2.1.getD i 0 ^ e
  let st1 := (List.range n).map fun i => acc.2.2.getD i 0 ^ e
  let ki1 := matAffine n pp.constants_matrix acc.1 pp.constants_constant
  let ks2 := matAffine n pp.mds ks1 ki1
  let st2 := matAffine n pp.mds st1 ks2
  (ki1, ks2, st2)

/-- The Rescue permutation (`permute`, constraints.rs:34-89): key_injection and
key_state both start at `initial_constant`, key_state is added element-wise
into the state, then `2 * rounds` sub-rounds run; the resulting state is
returned. -/
def permute (pp : RescueSpongeParameters P) (st : List (ZMod P)) : List (ZMod P) :=
  ((List.range (2 * pp.rounds)).foldl (permuteRound pp (pp.rate + pp.capacity))
    (pp.initial_constant, pp.initial_constant,
      (List.range (pp.rate + pp.capacity)).map
        fun i => st.getD i 0 + pp.initial_constant.getD i 0)).2.2

/-- The fold-in loops of `absorb_internal` (constraints.rs:99-101, 110-112):
`state[start + i] += elements[i]`, sequentially. -/
def addIntoState : List (ZMod P) → ℕ → List (ZMod P) → List (ZMod P)
  | st, _, [] => st
  | st, start, e :: es => addIntoState (st.set start (st.getD start 0 + e)) (start + 1) es

/-- Fueled body of `absorb_internal`; the fuel only bounds the recursion depth
and is irrelevant whenever it exceeds the input length
(`absorbInternalAux_fuel`).  In the `rate - start = 0` overflow case (where the
Rust recursion would never make progress) the input is returned untouched;
all callers keep `start < rate`. -/
def absorbInternalAux (pp : RescueSpongeParameters P) :
    ℕ → ℕ → List (ZMod P) → List (ZMod P) → List (ZMod P) × DuplexSpongeMode × ℕ
  | 0, _, _, st => (st, .Absorbing 0, 0)
  | fuel + 1, start, elems, st =>
    if start + elems.length ≤ pp.rate then
      (addIntoState st start elems, .Absorbing (start + elems.length), 0)
    else if pp.rate - start = 0 then
      (st, .Absorbing 0, 0)
    else
      let num := pp.rate - start
      let r := absorbInternalAux pp fuel 0 (elems.drop num) (permute pp (addIntoState st start (elems.take num)))
      (r.1, r.2.1, r.2.2 + 1)

/-- `absorb_internal` (constraints.rs:92-116): fold the elements into
`state[start..]`; if they do not fit, fold `rate - start` of them, permute, and
tail-recurse at cursor 0 on the remainder.  Returns the new state, the new
mode, and the number of permutations performed. -/
def absorb_internal (pp : RescueSpongeParameters P) (start : ℕ) (elems : List (ZMod P))
    (st : List (ZMod P)) : List (ZMod P) × DuplexSpongeMode × ℕ :=
  absorbInternalAux pp (elems.length + 1) start elems st

/-- Fueled body of `squeeze_internal`; same fuel discipline as
`absorbInternalAux`. -/
def squeezeInternalAux (pp : RescueSpongeParameters P) :
    ℕ → ℕ → ℕ → List (ZMod P) → List (ZMod P) × List (ZMod P) × DuplexSpongeMode × ℕ
  | 0, _, n, st => (List.replicate n 0, st, .Squeezing 0, 0)
  | fuel + 1, start, n, st =>
    if start + n ≤ pp.rate then
      ((st.drop start).take n, st, .Squeezing (start + n), 0)
    else if pp.rate - start = 0 then
      (List.replicate n 0, st, .Squeezing 0, 0)
    else
      let num := pp.rate - start
      let st2 := if n = pp.rate then st else permute pp st
      let r := squeezeInternalAux pp fuel 0 (n - num) st2
      ((st.drop start).take num ++ r.1, r.2.1, r.2.2.1, r.2.2.2 + if n = pp.rate then 0 else 1)

/-- `squeeze_internal` (constraints.rs:120-146): copy `state[start..start+n]`
into the output; if fewer than `n` elements remain before `rate`, copy the
`rate - start` available ones, permute unless the requested output length
equals `rate`, and tail-recurse at cursor 0.  Returns the output, the new
state, the new mode, and the number of permutations performed. -/
def squeeze_internal (pp : RescueSpongeParameters P) (start n : ℕ) (st : List (ZMod P)) :
    List (ZMod P) × List (ZMod P) × DuplexSpongeMode × ℕ :=
  squeezeInternalAux pp (n + 1) start n st

/-- `new` (constraints.rs:151-160): all-zero state of length `rate + capacity`,
mode `Absorbing { next_absorb_index: 0 }`. -/
def newSponge (pp : RescueSpongeParameters P) : RescueSpongeVar P :=
  ⟨List.replicate (pp.rate + pp.capacity) 0, .Absorbing 0⟩

/-- `absorb` (constraints.rs:168-192), taking the already-canonicalized input:
empty input is a no-op; in `Absorbing` mode permute first iff the cursor
equals `rate`; in `Squeezing` mode always permute and restart at cursor 0.
Returns the new sponge and the number of permutations performed. -/
def absorb (pp : RescueSpongeParameters P) (input : List (ZMod P)) (s : RescueSpongeVar P) :
    RescueSpongeVar P × ℕ :=
  if input = [] then (s, 0)
  else
    match s.mode with
    | .Absorbing idx =>
        if idx = pp.rate then
          let r := absorb_internal pp 0 input (permute pp s.state)
          (⟨r.1, r.2.1⟩, r.2.2 + 1)
        else
          let r := absorb_internal pp idx input s.state
          (⟨r.1, r.2.1⟩, r.2.2)
    | .Squeezing _ =>
        let r := absorb_internal pp 0 input (permute pp s.state)
        (⟨r.1, r.2.1⟩, r.2.2 + 1)

/-- `squeeze_field_elements` (constraints.rs:227-251): in `Absorbing` mode
permute and read from cursor 0; in `Squeezing` mode permute first iff the
cursor equals `rate`.  Returns the output, the new sponge, and the number of
permutations performed. -/
def squeeze_field_elements (pp : RescueSpongeParameters P) (n : ℕ) (s : RescueSpongeVar P) :
    List (ZMod P) × RescueSpongeVar P × ℕ :=
  match s.mode with
  | .Absorbing _ =>
      let r := squeeze_internal pp 0 n (permute pp s.state)
      (r.1, ⟨r.2.1, r.2.2.1⟩, r.2.2.2 + 1)
  | .Squeezing idx =>
      if idx = pp.rate then
        let r := squeeze_internal pp 0 n (permute pp s.state)
        (r.1, ⟨r.2.1, r.2.2.1⟩, r.2.2.2 + 1)
      else
        let r := squeeze_internal pp idx n s.state
        (r.1, ⟨r.2.1, r.2.2.1⟩, r.2.2.2)

/-- Fueled bit-length helper (structural, so it kernel-reduces). -/
def bitLenAux : ℕ → ℕ → ℕ
  | 0, _ => 0
  | fuel + 1, n => if n = 0 then 0 else bitLenAux fuel (n / 2) + 1

/-- Number of bits of `n`: `F::Params::MODULUS_BITS` for the modulus `n`. -/
def bitLen (n : ℕ) : ℕ := bitLenAux n n

/-- `F::Params::CAPACITY`: the number of bits that can always be extracted from
a field element, `MODULUS_BITS - 1` for arkworks prime fields. -/
def capacityBits (P : ℕ) : ℕ := bitLen P - 1

/-- The `usable_bytes` low-order bytes of a field element:
`elem.to_bytes()?[..usable_bytes]`, little-endian bytes of the canonical
representative. -/
def elemLowBytes (u : ℕ) (x : ZMod P) : List ℕ :=
  (List.range u).map fun i => x.val / 256 ^ i % 256

/-- `squeeze_bytes` (constraints.rs:195-208): squeeze
`ceil(num_bytes / usable_bytes)` field elements, keep the low `usable_bytes`
bytes of each, concatenate, truncate to `num_bytes`. -/
def squeeze_bytes (pp : RescueSpongeParameters P) (numBytes : ℕ) (s : RescueSpongeVar P) :
    List ℕ × RescueSpongeVar P × ℕ :=
  let usableBytes := capacityBits P / 8
  let numElements := (numBytes + usableBytes - 1) / usableBytes
  let r := squeeze_field_elements pp numElements s
  (((r.1.map (elemLowBytes usableBytes)).flatten).take numBytes, r.2.1, r.2.2)

/-! ### The round function as the specification words it (for claim C4) -/

/-- Matrix-vector product as the spec describes the affine layers: each row of
the matrix dotted with the vector. -/
def specMatVec (M : List (List (ZMod P))) (v : List (ZMod P)) : List (ZMod P) :=
  M.map fun row => (List.zipWith (· * ·) row v).sum

/-- Affine update `M · v + c` as the spec words it. -/
def specAffine (M : List (List (ZMod P))) (v c : List (ZMod P)) : List (ZMod P) :=
  List.zipWith (· + ·) (specMatVec M v) c

/-- The spec's round loop: for each `r` in `0 .. 2*rounds`, raise every element
of key_state and state to `inv_alpha` (even `r`) or `alpha` (odd `r`), then
`key_injection := constants_matrix · key_injection + constants_constant`,
`key_state := mds · key_state + key_injection`,
`state := mds · state + key_state`.  `k` counts the remaining sub-rounds,
`r` is the current sub-round number. -/
def specSubRounds (pp : RescueSpongeParameters P) :
    ℕ → ℕ → List (ZMod P) × List (ZMod P) × List (ZMod P) →
      List (ZMod P) × List (ZMod P) × List (ZMod P)
  | _, 0, acc => acc
  | r, k + 1, (ki, ks, st) =>
      let e := if r % 2 = 0 then pp.invalpha else pp.alpha
      let ks1 := ks.map (· ^ e)
      let st1 := st.map (· ^ e)
      let ki1 := specAffine pp.constants_matrix ki pp.constants_constant
      let ks2 := specAffine pp.mds ks1 ki1
      let st2 := specAffine pp.mds st1 ks2
      specSubRounds pp (r + 1) k (ki1, ks2, st2)

/-- The permutation exactly as the specification words it: key_state and
key_injection both initialized to `initial_constant`, key_state added
element-wise into the state, then the `2 * rounds` sub-rounds. -/
def specPermute (pp : RescueSpongeParameters P) (st : List (ZMod P)) : List (ZMod P) :=
  (specSubRounds pp 0 (2 * pp.rounds)
    (pp.initial_constant, pp.initial_constant,
      List.zipWith (· + ·) st pp.initial_constant)).2.2

/-- Dimension coherence of a parameter set: every vector and matrix has the
state width `rate + capacity` (validated at construction time by the external
collaborator, per the spec). -/
abbrev WellFormedParams (pp : RescueSpongeParameters P) : Prop :=
  pp.initial_constant.length = pp.rate + pp.capacity ∧
  pp.constants_matrix.length = pp.rate + pp.capacity ∧
  (∀ row ∈ pp.constants_matrix, row.length = pp.rate + pp.capacity) ∧
  pp.constants_constant.length = pp.rate + pp.capacity ∧
  pp.mds.length = pp.rate + pp.capacity ∧
  (∀ row ∈ pp.mds, row.length = pp.rate + pp.capacity)

/-! ### Canonicalization layer (src/src/constraints/absorbable.rs) -/

/-- `(batch.len() as u64).to_le_bytes()`: the 8 little-endian bytes of the
element count (wrapped to 64 bits). -/
def u64LeBytes (n : ℕ) : List ℕ :=
  (List.range 8).map fun i => n % 2 ^ 64 / 256 ^ i % 256

/-- Little-endian value of a byte chunk. -/
def chunkVal : List ℕ → ℕ
  | [] => 0
  | b :: bs => b + 256 * chunkVal bs

/-- Fueled chunk splitter (structural; fuel irrelevance in `toChunksAux_fuel`). -/
def toChunksAux (u : ℕ) : ℕ → List ℕ → List (List ℕ)
  | _, [] => []
  | 0, bs => [bs]
  | fuel + 1, bs => bs.take u :: toChunksAux u fuel (bs.drop u)

/-- Split a byte list into chunks of `u` bytes (the last chunk may be short). -/
def toChunks (u : ℕ) (bs : List ℕ) : List (List ℕ) :=
  toChunksAux u bs.length bs

/-- Modelled from the spec: the byte-sequence canonicalization — the external
`to_constraint_field` primitive on byte vectors, which is out of scope of
src/ ("byte/bit conversion primitives for the field-element representation"
are external collaborators).  It packs the byte sequence into field elements,
`u = CAPACITY / 8` bytes per element, each chunk read as a little-endian
integer. -/
def bytesToConstraintField (u : ℕ) (bs : List ℕ) : List (ZMod P) :=
  (toChunks u bs).map fun c => (chunkVal c : ZMod P)

/-- `UInt8::batch_to_sponge_field_elements` (absorbable.rs:39-43): prepend the
8 little-endian bytes of the element count, append the batch, and canonicalize
the combined byte sequence. -/
def uint8BatchToSpongeFieldElements (u : ℕ) (batch : List ℕ) : List (ZMod P) :=
  bytesToConstraintField u (u64LeBytes batch.length ++ batch)

/-- The batch canonicalization as the spec words it (for the refinement claim
C5): the byte-sequence canonicalization of the concatenation of the length
prefix (the element count as a fixed-width little-endian byte sequence) with
the batch's own bytes, processed as one combined byte sequence. -/
def specBatchCanonicalization (u : ℕ) (batch : List ℕ) : List (ZMod P) :=
  bytesToConstraintField u (u64LeBytes batch.length ++ batch)

/-- `Option<A>` canonicalization (absorbable.rs:112-120): one field element
signaling presence (`Boolean::constant(self.is_some())` lifted to the field),
followed by the contained value's canonicalization when present. -/
def optionToSpongeFieldElements {α : Type} (f : α → List (ZMod P)) :
    Option α → List (ZMod P)
  | none => [(0 : ZMod P)]
  | some a => (1 : ZMod P) :: f a

/-! ### Concrete parameter sets used as witnesses -/

/-- A tiny parameter set over `ZMod 17`: rate 1, capacity 1, one round,
`alpha = 5` with `inv_alpha = 13` (`5 * 13 ≡ 1 mod 16`), an invertible MDS
matrix. -/
def ppA : RescueSpongeParameters 17 :=
  { rate := 1, capacity := 1, rounds := 1, alpha := 5, invalpha := 13,
    initial_constant := [1, 2],
    constants_matrix := [[1, 0], [0, 1]], constants_constant := [1, 1],
    mds := [[1, 1], [1, 2]] }

/-- A parameter set over `ZMod 65537` (a 17-bit prime, so `CAPACITY = 16` and
`usable_bytes = 2`), with zero rounds so the permutation is the plain initial
key injection — enough to observe byte-level splitting behaviour. -/
def ppB : RescueSpongeParameters 65537 :=
  { rate := 1, capacity := 1, rounds := 0, alpha := 5, invalpha := 5,
    initial_constant := [258, 0],
    constants_matrix := [[1, 0], [0, 1]], constants_constant := [0, 0],
    mds := [[1, 0], [0, 1]] }

/-- A rate-2 parameter set over `ZMod 17`, used to exhibit the
`output.len() == rate` permutation-skip corner of `squeeze_internal`. -/
def ppC : RescueSpongeParameters 17 :=
  { rate := 2, capacity := 1, rounds := 1, alpha := 5, invalpha := 13,
    initial_constant := [1, 2, 3],
    constants_matrix := [[1, 0, 0], [0, 1, 0], [0, 0, 1]],
    constants_constant := [1, 1, 1],
    mds := [[1, 1, 1], [1, 2, 1], [1, 1, 2]] }

/-! ### Fuel irrelevance and unfolding equations -/

theorem absorbInternalAux_fuel (pp : RescueSpongeParameters P) :
    ∀ f1 f2 start elems st, elems.length < f1 → elems.length < f2 →
      absorbInternalAux pp f1 start elems st = absorbInternalAux pp f2 start elems st := by
  intro f1
  induction f1 with
  | zero => intro f2 start elems st h1 h2; omega
  | succ g ih =>
    intro f2 start elems st h1 h2
    cases f2 with
    | zero => omega
    | succ g2 =>
      simp only [absorbInternalAux]
      by_cases hfit : start + elems.length ≤ pp.rate
      · simp [hfit]
      · simp only [if_neg hfit]
        by_cases hz : pp.rate - start = 0
        · simp [hz]
        · simp only [if_neg hz]
          have hdrop : (elems.drop (pp.rate - start)).length < g := by
            simp only [List.length_drop]; omega
          have hdrop2 : (elems.drop (pp.rate - start)).length < g2 := by
            simp only [List.length_drop]; omega
          rw [ih g2 0 _ _ hdrop hdrop2]

/-- The recursion equation of `absorb_internal`, exactly mirroring
constraints.rs:92-116 (with the non-terminating `rate = start` corner returned
untouched). -/
theorem absorb_internal_eq (pp : RescueSpongeParameters P) (start : ℕ)
    (elems : List (ZMod P)) (st : List (ZMod P)) :
    absorb_internal pp start elems st =
      if start + elems.length ≤ pp.rate then
        (addIntoState st start elems, .Absorbing (start + elems.length), 0)
      else if pp.rate - start = 0 then
        (st, .Absorbing 0, 0)
      else
        let num := pp.rate - start
        let r := absorb_internal pp 0 (elems.drop num)
          (permute pp (addIntoState st start (elems.take num)))
        (r.1, r.2.1, r.2.2 + 1) := by
  unfold absorb_internal
  conv_lhs => rw [absorbInternalAux]
  by_cases hfit : start + elems.length ≤ pp.rate
  · simp [hfit]
  · simp only [if_neg hfit]
    by_cases hz : pp.rate - start = 0
    · simp [hz]
    · simp only [if_neg hz]
      rw [absorbInternalAux_fuel pp elems.length ((elems.drop (pp.rate - start)).length + 1) 0]
      · simp only [List.length_drop]; omega
      · omega

theorem squeezeInternalAux_fuel (pp : RescueSpongeParameters P) :
    ∀ f1 f2 start n st, n < f1 → n < f2 →
      squeezeInternalAux pp f1 start n st = squeezeInternalAux pp f2 start n st := by
  intro f1
  induction f1 with
  | zero => intro f2 start n st h1 h2; omega
  | succ g ih =>
    intro f2 start n st h1 h2
    cases f2 with
    | zero => omega
    | succ g2 =>
      simp only [squeezeInternalAux]
      by_cases hfit : start + n ≤ pp.rate
      · simp [hfit]
      · simp only [if_neg hfit]
        by_cases hz : pp.rate - start = 0
        · simp [hz]
        · simp only [if_neg hz]
          rw [ih g2 0 (n - (pp.rate - start)) _ (by omega) (by omega)]

/-- The recursion equation of `squeeze_internal`, exactly mirroring
constraints.rs:120-146: after copying the available `rate - start` elements the
engine permutes iff the requested output length differs from `rate`, and the
remainder is read starting at cursor 0. -/
theorem squeeze_internal_eq (pp : RescueSpongeParameters P) (start n : ℕ)
    (st : List (ZMod P)) :
    squeeze_internal pp start n st =
      if start + n ≤ pp.rate then
        ((st.drop start).take n, st, .Squeezing (start + n), 0)
      else if pp.rate - start = 0 then
        (List.replicate n 0, st, .Squeezing 0, 0)
      else
        let num := pp.rate - start
        let st2 := if n = pp.rate then st else permute pp st
        let r := squeeze_internal pp 0 (n - num) st2
        ((st.drop start).take num ++ r.1, r.2.1, r.2.2.1,
          r.2.2.2 + if n = pp.rate then 0 else 1) := by
  unfold squeeze_internal
  conv_lhs => rw [squeezeInternalAux]
  by_cases hfit : start + n ≤ pp.rate
  · simp [hfit]
  · simp only [if_neg hfit]
    by_cases hz : pp.rate - start = 0
    · simp [hz]
    · simp only [if_neg hz]
      rw [squeezeInternalAux_fuel pp n (n - (pp.rate - start) + 1) 0 _ _ (by omega) (by omega)]

/-! ### Basic structural lemmas -/

theorem matAffine_length (n : ℕ) (M : List (List (ZMod P))) (v c : List (ZMod P)) :
    (matAffine n M v c).length = n := by
  simp [matAffine]

theorem permuteRound_length (pp : RescueSpongeParameters P) (n : ℕ)
    (acc : List (ZMod P) × List (ZMod P) × List (ZMod P)) (r : ℕ) :
    (permuteRound pp n acc r).2.2.length = n := by
  simp [permuteRound, matAffine_length]

theorem foldl_permuteRound_length (pp : RescueSpongeParameters P) (n : ℕ) :
    ∀ (l : List ℕ) (acc : List (ZMod P) × List (ZMod P) × List (ZMod P)),
      acc.2.2.length = n → ((l.foldl (permuteRound pp n) acc)).2.2.length = n := by
  intro l
  induction l with
  | nil => intro acc h; simpa using h
  | cons r t ih =>
      intro acc h
      simp only [List.foldl_cons]
      exact ih _ (permuteRound_length ..)

/-- The permutation always returns a state vector of length `rate + capacity`. -/
theorem permute_length (pp : RescueSpongeParameters P) (st : List (ZMod P)) :
    (permute pp st).length = pp.rate + pp.capacity := by
  unfold permute
  exact foldl_permuteRound_length pp _ _ _ (by simp)

theorem squeezeInternalAux_length (pp : RescueSpongeParameters P) :
    ∀ fuel start n st, n < fuel → st.length = pp.rate + pp.capacity →
      (squeezeInternalAux pp fuel start n st).1.length = n ∧
      (squeezeInternalAux pp fuel start n st).2.1.length = pp.rate + pp.capacity := by
  intro fuel
  induction fuel with
  | zero => intro start n st h1; omega
  | succ g ih =>
    intro start n st h1 hst
    simp only [squeezeInternalAux]
    by_cases hfit : start + n ≤ pp.rate
    · simp only [if_pos hfit]
      constructor
      · simp only [List.length_take, List.length_drop]; omega
      · exact hst
    · simp only [if_neg hfit]
      by_cases hz : pp.rate - start = 0
      · simp [hz, hst]
      · simp only [if_neg hz]
        have hst2 : (if n = pp.rate then st else permute pp st).length = pp.rate + pp.capacity := by
          split
          · exact hst
          · exact permute_length ..
        have hr := ih 0 (n - (pp.rate - start)) _ (by omega) hst2
        refine ⟨?_, hr.2⟩
        simp only [List.length_append, List.length_take, List.length_drop, hr.1]
        omega

/-- `squeeze_internal` returns exactly as many elements as requested and
preserves the state-vector length. -/
theorem squeeze_internal_length (pp : RescueSpongeParameters P) (start n : ℕ)
    (st : List (ZMod P)) (hst : st.length = pp.rate + pp.capacity) :
    (squeeze_internal pp start n st).1.length = n ∧
    (squeeze_internal pp start n st).2.1.length = pp.rate + pp.capacity :=
  squeezeInternalAux_length pp (n + 1) start n st (by omega) hst

theorem squeezeInternalAux_index (pp : RescueSpongeParameters P) :
    ∀ fuel start n st, (squeezeInternalAux pp fuel start n st).2.2.1.index ≤ pp.rate := by
  intro fuel
  induction fuel with
  | zero => intro start n st; simp [squeezeInternalAux, DuplexSpongeMode.index]
  | succ g ih =>
    intro start n st
    simp only [squeezeInternalAux]
    by_cases hfit : start + n ≤ pp.rate
    · simp [DuplexSpongeMode.index, hfit]
    · simp only [if_neg hfit]
      by_cases hz : pp.rate - start = 0
      · simp [hz, DuplexSpongeMode.index]
      · simp only [if_neg hz]
        exact ih ..

theorem absorbInternalAux_index (pp : RescueSpongeParameters P) :
    ∀ fuel start elems st, (absorbInternalAux pp fuel start elems st).2.1.index ≤ pp.rate := by
  intro fuel
  induction fuel with
  | zero => intro start elems st; simp [absorbInternalAux, DuplexSpongeMode.index]
  | succ g ih =>
    intro start elems st
    simp only [absorbInternalAux]
    by_cases hfit : start + elems.length ≤ pp.rate
    · simp [DuplexSpongeMode.index, hfit]
    · simp only [if_neg hfit]
      by_cases hz : pp.rate - start = 0
      · simp [hz, DuplexSpongeMode.index]
      · simp only [if_neg hz]
        exact ih ..

theorem squeezeInternalAux_state (pp : RescueSpongeParameters P) :
    ∀ fuel start n st,
      (squeezeInternalAux pp fuel start n st).2.1 =
        (permute pp)^[(squeezeInternalAux pp fuel start n st).2.2.2] st := by
  intro fuel
  induction fuel with
  | zero => intro start n st; simp [squeezeInternalAux]
  | succ g ih =>
    intro start n st
    simp only [squeezeInternalAux]
    by_cases hfit : start + n ≤ pp.rate
    · simp [hfit]
    · simp only [if_neg hfit]
      by_cases hz : pp.rate - start = 0
      · simp [hz]
      · simp only [if_neg hz]
        by_cases hn : n = pp.rate
        · simpa [hn] using ih 0 (n - (pp.rate - start)) st
        · simp only [if_neg hn]
          rw [ih 0 (n - (pp.rate - start)) (permute pp st)]
          rw [← Function.iterate_succ_apply]

/-- `squeeze_internal` only modifies the state through the permutations it
performs: the final state is the permutation iterated exactly
permutation-count many times on the initial state. -/
theorem squeeze_internal_state (pp : RescueSpongeParameters P) (start n : ℕ)
    (st : List (ZMod P)) :
    (squeeze_internal pp start n st).2.1 =
      (permute pp)^[(squeeze_internal pp start n st).2.2.2] st :=
  squeezeInternalAux_state pp (n + 1) start n st

/-! ### Equivalence of the loop-style and spec-style permutation (claim C4) -/

theorem zipWith_eq_range_map {α β γ : Type} (f : α → β → γ) (d1 : α) (d2 : β)
    (as : List α) (bs : List β) (n : ℕ) (ha : as.length = n) (hb : bs.length = n) :
    List.zipWith f as bs = (List.range n).map fun j => f (as.getD j d1) (bs.getD j d2) := by
  apply List.ext_getElem
  · simp [ha, hb]
  · intro i h1 h2
    have h1' := h1
    rw [List.length_zipWith, ha, hb, Nat.min_self] at h1'
    simp only [List.getElem_zipWith, List.getElem_map, List.getElem_range]
    rw [List.getD_eq_getElem as d1 (by omega), List.getD_eq_getElem bs d2 (by omega)]

theorem map_eq_range_map {α β : Type} (f : α → β) (d : α)
    (v : List α) (n : ℕ) (hv : v.length = n) :
    v.map f = (List.range n).map fun i => f (v.getD i d) := by
  apply List.ext_getElem
  · simp [hv]
  · intro i h1 h2
    have h1' := h1
    rw [List.length_map, hv] at h1'
    simp only [List.getElem_map, List.getElem_range]
    rw [List.getD_eq_getElem v d (by omega)]

theorem specAffine_length (n : ℕ) (M : List (List (ZMod P))) (v c : List (ZMod P))
    (hM : M.length = n) (hc : c.length = n) : (specAffine M v c).length = n := by
  simp [specAffine, specMatVec, hM, hc]

/-- The imperative affine loop of `permute` computes the spec's `M · v + c`. -/
theorem matAffine_eq_specAffine (n : ℕ) (M : List (List (ZMod P))) (v c : List (ZMod P))
    (hM : M.length = n) (hrows : ∀ row ∈ M, row.length = n)
    (hv : v.length = n) (hc : c.length = n) :
    matAffine n M v c = specAffine M v c := by
  apply List.ext_getElem
  · simp [matAffine, specAffine, specMatVec, hM, hc]
  · intro i h1 h2
    have hin : i < n := by
      rw [matAffine_length] at h1
      exact h1
    simp only [matAffine, List.getElem_map, List.getElem_range, specAffine,
      List.getElem_zipWith, specMatVec, matRowAffine]
    rw [List.getD_eq_getElem M [] (by omega), List.getD_eq_getElem c 0 (by omega)]
    rw [zipWith_eq_range_map (· * ·) 0 0 (M[i]) v n
      (hrows _ (List.getElem_mem (by omega))) hv]

/-- One loop iteration of `permute` equals one spec sub-round. -/
theorem permuteRound_eq_spec (pp : RescueSpongeParameters P) (n r : ℕ)
    (ki ks st : List (ZMod P))
    (hki : ki.length = n) (hks : ks.length = n) (hst : st.length = n)
    (hcm : pp.constants_matrix.length = n)
    (hcrows : ∀ row ∈ pp.constants_matrix, row.length = n)
    (hcc : pp.constants_constant.length = n)
    (hmds : pp.mds.length = n)
    (hmrows : ∀ row ∈ pp.mds, row.length = n) :
    permuteRound pp n (ki, ks, st) r =
      (let e := if r % 2 = 0 then pp.invalpha else pp.alpha
       let ks1 := ks.map (· ^ e)
       let st1 := st.map (· ^ e)
       let ki1 := specAffine pp.constants_matrix ki pp.constants_constant
       let ks2 := specAffine pp.mds ks1 ki1
       let st2 := specAffine pp.mds st1 ks2
       (ki1, ks2, st2)) := by
  simp only [permuteRound]
  rw [← map_eq_range_map (· ^ if r % 2 = 0 then pp.invalpha else pp.alpha) 0 ks n hks]
  rw [← map_eq_range_map (· ^ if r % 2 = 0 then pp.invalpha else pp.alpha) 0 st n hst]
  rw [matAffine_eq_specAffine n _ _ _ hcm hcrows hki hcc]
  rw [matAffine_eq_specAffine n _ _ _ hmds hmrows (by simp [hks])
    (specAffine_length n _ _ _ hcm hcc)]
  rw [matAffine_eq_specAffine n _ _ _ hmds hmrows (by simp [hst])
    (specAffine_length n _ _ _ hmds (specAffine_length n _ _ _ hcm hcc))]

/-- The round loop of `permute`, folded over `r = 0, 1, …`, equals the spec's
recursion over the remaining sub-rounds. -/
theorem foldl_eq_specSubRounds (pp : RescueSpongeParameters P) (n : ℕ)
    (hcm : pp.constants_matrix.length = n)
    (hcrows : ∀ row ∈ pp.constants_matrix, row.length = n)
    (hcc : pp.constants_constant.length = n)
    (hmds : pp.mds.length = n)
    (hmrows : ∀ row ∈ pp.mds, row.length = n) :
    ∀ (k r : ℕ) (ki ks st : List (ZMod P)),
      ki.length = n → ks.length = n → st.length = n →
      (List.range' r k).foldl (permuteRound pp n) (ki, ks, st) =
        specSubRounds pp r k (ki, ks, st) := by
  intro k
  induction k with
  | zero => intro r ki ks st _ _ _; rfl
  | succ k ih =>
      intro r ki ks st hki hks hst
      rw [List.range'_succ, List.foldl_cons]
      rw [permuteRound_eq_spec pp n r ki ks st hki hks hst hcm hcrows hcc hmds hmrows]
      have hki1 : (specAffine pp.constants_matrix ki pp.constants_constant).length = n :=
        specAffine_length n _ _ _ hcm hcc
      have hks2 : (specAffine pp.mds
          (ks.map (· ^ if r % 2 = 0 then pp.invalpha else pp.alpha))
          (specAffine pp.constants_matrix ki pp.constants_constant)).length = n :=
        specAffine_length n _ _ _ hmds hki1
      have hst2 : (specAffine pp.mds
          (st.map (· ^ if r % 2 = 0 then pp.invalpha else pp.alpha))
          (specAffine pp.mds (ks.map (· ^ if r % 2 = 0 then pp.invalpha else pp.alpha))
            (specAffine pp.constants_matrix ki pp.constants_constant))).length = n :=
        specAffine_length n _ _ _ hmds hks2
      rw [ih (r + 1) _ _ _ hki1 hks2 hst2]
      rfl

/-! ### Byte squeezing lemmas (claim C1) -/

theorem squeeze_internal_fits (pp : RescueSpongeParameters P) (start n : ℕ)
    (st : List (ZMod P)) (h : start + n ≤ pp.rate) :
    squeeze_internal pp start n st = ((st.drop start).take n, st, .Squeezing (start + n), 0) := by
  rw [squeeze_internal_eq, if_pos h]

theorem squeeze_internal_zero_overflow (pp : RescueSpongeParameters P) (n : ℕ)
    (st : List (ZMod P)) (hr : 1 ≤ pp.rate) (hn : pp.rate < n) :
    squeeze_internal pp 0 n st =
      (st.take pp.rate ++ (squeeze_internal pp 0 (n - pp.rate) (permute pp st)).1,
       (squeeze_internal pp 0 (n - pp.rate) (permute pp st)).2.1,
       (squeeze_internal pp 0 (n - pp.rate) (permute pp st)).2.2.1,
       (squeeze_internal pp 0 (n - pp.rate) (permute pp st)).2.2.2 + 1) := by
  rw [squeeze_internal_eq, if_neg (by omega : ¬ 0 + n ≤ pp.rate),
    if_neg (by omega : ¬ pp.rate - 0 = 0)]
  simp only [Nat.sub_zero, List.drop_zero]
  simp only [if_neg (by omega : ¬ n = pp.rate)]

/-- Reading from cursor 0 is prefix-monotone: a shorter squeeze yields exactly
the prefix of a longer one from the same state. -/
theorem squeeze_internal_take_eq (pp : RescueSpongeParameters P) (hr : 1 ≤ pp.rate) :
    ∀ (K k : ℕ) (st : List (ZMod P)), k ≤ K → st.length = pp.rate + pp.capacity →
      (squeeze_internal pp 0 k st).1 = ((squeeze_internal pp 0 K st).1).take k := by
  intro K
  induction K using Nat.strong_induction_on with
  | _ K ih =>
    intro k st hkK hst
    rcases le_or_lt K pp.rate with hK | hK
    · rw [squeeze_internal_fits pp 0 k st (by omega), squeeze_internal_fits pp 0 K st (by omega)]
      show (st.drop 0).take k = ((st.drop 0).take K).take k
      rw [List.take_take, min_eq_left hkK]
    · rcases le_or_lt k pp.rate with hk | hk
      · rw [squeeze_internal_fits pp 0 k st (by omega),
          squeeze_internal_zero_overflow pp K st hr hK]
        show (st.drop 0).take k =
          (st.take pp.rate ++ (squeeze_internal pp 0 (K - pp.rate) (permute pp st)).1).take k
        rw [List.drop_zero, List.take_append_of_le_length (by rw [List.length_take]; omega)]
        rw [List.take_take, min_eq_left hk]
      · rw [squeeze_internal_zero_overflow pp k st hr hk,
          squeeze_internal_zero_overflow pp K st hr hK]
        show st.take pp.rate ++ (squeeze_internal pp 0 (k - pp.rate) (permute pp st)).1 =
          (st.take pp.rate ++ (squeeze_internal pp 0 (K - pp.rate) (permute pp st)).1).take k
        rw [ih (K - pp.rate) (by omega) (k - pp.rate) (permute pp st) (by omega)
          (permute_length ..)]
        have hlen : (st.take pp.rate).length = pp.rate := by
          rw [List.length_take]
          omega
        rw [← List.take_append (k - pp.rate)]
        rw [hlen]
        congr 1
        omega

theorem elemLowBytes_length (u : ℕ) (x : ZMod P) : (elemLowBytes u x).length = u := by
  simp [elemLowBytes]

theorem flatten_map_length {α β : Type} (f : α → List β) (u : ℕ)
    (hf : ∀ x, (f x).length = u) (l : List α) :
    ((l.map f).flatten).length = u * l.length := by
  induction l with
  | nil => simp
  | cons a t ih =>
      simp only [List.map_cons, List.flatten_cons, List.length_append, ih, hf a,
        List.length_cons, Nat.mul_succ]
      omega

theorem flatten_map_take {α β : Type} (f : α → List β) (u : ℕ)
    (hf : ∀ x, (f x).length = u) :
    ∀ (j : ℕ) (l : List α),
      ((l.take j).map f).flatten = ((l.map f).flatten).take (u * j) := by
  intro j
  induction j with
  | zero => intro l; simp
  | succ j ih =>
      intro l
      cases l with
      | nil => simp
      | cons a t =>
          simp only [List.take_succ_cons, List.map_cons, List.flatten_cons]
          rw [ih t, Nat.mul_succ]
          rw [show u * j + u = (f a).length + u * j from by rw [hf a]; omega]
          rw [List.take_append]

theorem le_ceil_mul (u n : ℕ) (hu : 1 ≤ u) : n ≤ u * ((n + u - 1) / u) := by
  rcases Nat.eq_zero_or_pos n with hn | hn
  · omega
  · have h1 := Nat.div_add_mod (n + u - 1) u
    have h2 : (n + u - 1) % u < u := Nat.mod_lt _ (by omega)
    generalize hx : u * ((n + u - 1) / u) = x at *
    omega

/-! ### Canonicalization lemmas (claims C5 and C8) -/

theorem u64LeBytes_length (n : ℕ) : (u64LeBytes n).length = 8 := by
  simp [u64LeBytes]

theorem chunkVal_digits : ∀ (k m : ℕ),
    chunkVal ((List.range k).map fun i => m / 256 ^ i % 256) = m % 256 ^ k := by
  intro k
  induction k with
  | zero => intro m; simp [chunkVal, Nat.mod_one]
  | succ k ih =>
      intro m
      have h1 : (List.range (k + 1)).map (fun i => m / 256 ^ i % 256)
          = (m % 256) :: (List.range k).map (fun i => m / 256 / 256 ^ i % 256) := by
        rw [List.range_succ_eq_map, List.map_cons, List.map_map]
        simp only [pow_zero, Nat.div_one]
        congr 1
        apply List.map_congr_left
        intro i _
        simp only [Function.comp_apply]
        rw [Nat.div_div_eq_div_mul]
        congr 2
        rw [pow_succ]
        ring
      rw [h1]
      show m % 256 + 256 * chunkVal ((List.range k).map fun i => m / 256 / 256 ^ i % 256)
        = m % 256 ^ (k + 1)
      rw [ih (m / 256)]
      rw [show (256 : ℕ) ^ (k + 1) = 256 * 256 ^ k from by ring]
      rw [Nat.mod_mul]

theorem chunkVal_u64LeBytes (n : ℕ) : chunkVal (u64LeBytes n) = n % 2 ^ 64 := by
  unfold u64LeBytes
  rw [chunkVal_digits 8 (n % 2 ^ 64)]
  rw [show (256 : ℕ) ^ 8 = 2 ^ 64 from by norm_num]
  omega

theorem chunkVal_lt : ∀ (c : List ℕ), (∀ x ∈ c, x < 256) → chunkVal c < 256 ^ c.length := by
  intro c
  induction c with
  | nil => intro _; simp [chunkVal]
  | cons b bs ih =>
      intro hb
      have h1 : b < 256 := hb b (by simp)
      have h2 : chunkVal bs < 256 ^ bs.length := ih fun x hx => hb x (by simp [hx])
      show b + 256 * chunkVal bs < 256 ^ (bs.length + 1)
      rw [show (256 : ℕ) ^ (bs.length + 1) = 256 * 256 ^ bs.length from by ring]
      have h3 : 256 * (chunkVal bs + 1) ≤ 256 * 256 ^ bs.length :=
        Nat.mul_le_mul_left 256 h2
      omega

theorem chunkVal_zero : ∀ (b : List ℕ), chunkVal b = 0 → b = List.replicate b.length 0 := by
  intro b
  induction b with
  | nil => simp
  | cons y ys ih =>
      intro h
      have h1 : y + 256 * chunkVal ys = 0 := h
      have hy : y = 0 := by omega
      have hys : chunkVal ys = 0 := by omega
      show y :: ys = List.replicate (ys.length + 1) 0
      rw [List.replicate_succ, hy]
      exact congrArg (0 :: ·) (ih hys)

/-- Base-256 digit lists with equal value agree up to trailing zeros. -/
theorem chunkVal_eq_padding : ∀ (a b : List ℕ), (∀ x ∈ a, x < 256) → (∀ x ∈ b, x < 256) →
    a.length ≤ b.length → chunkVal a = chunkVal b →
    b = a ++ List.replicate (b.length - a.length) 0 := by
  intro a
  induction a with
  | nil =>
      intro b _ _ _ hv
      have : chunkVal b = 0 := by
        rw [← hv]
        rfl
      simpa using chunkVal_zero b this
  | cons x xs ih =>
      intro b hxa hb hlen hv
      cases b with
      | nil => simp at hlen
      | cons y ys =>
          have hxy : x + 256 * chunkVal xs = y + 256 * chunkVal ys := hv
          have hx : x < 256 := hxa x (by simp)
          have hy : y < 256 := hb y (by simp)
          have hxeq : x = y := by omega
          have hceq : chunkVal xs = chunkVal ys := by omega
          have hrec := ih ys (fun z hz => hxa z (by simp [hz])) (fun z hz => hb z (by simp [hz]))
            (by simpa using hlen) hceq
          have harg : (y :: ys).length - (x :: xs).length = ys.length - xs.length := by
            simp only [List.length_cons]
            omega
          rw [harg, List.cons_append, hxeq]
          exact congrArg (y :: ·) hrec

theorem toChunksAux_fuel (u : ℕ) (hu : 1 ≤ u) :
    ∀ f1 f2 (bs : List ℕ), bs.length ≤ f1 → bs.length ≤ f2 →
      toChunksAux u f1 bs = toChunksAux u f2 bs := by
  intro f1
  induction f1 with
  | zero =>
      intro f2 bs h1 _
      have hb : bs = [] := List.length_eq_zero.mp (by omega)
      subst hb
      cases f2 <;> rfl
  | succ g ih =>
      intro f2 bs h1 h2
      cases bs with
      | nil => cases f2 <;> rfl
      | cons b t =>
          cases f2 with
          | zero =>
              simp only [List.length_cons] at h2
              omega
          | succ g2 =>
              show (b :: t).take u :: toChunksAux u g ((b :: t).drop u)
                = (b :: t).take u :: toChunksAux u g2 ((b :: t).drop u)
              congr 1
              apply ih
              · simp only [List.length_drop, List.length_cons] at h1 ⊢
                omega
              · simp only [List.length_drop, List.length_cons] at h2 ⊢
                omega

theorem toChunks_cons (u : ℕ) (hu : 1 ≤ u) (b : ℕ) (t : List ℕ) :
    toChunks u (b :: t) = (b :: t).take u :: toChunks u ((b :: t).drop u) := by
  show toChunksAux u (t.length + 1) (b :: t) = _
  show (b :: t).take u :: toChunksAux u t.length ((b :: t).drop u) = _
  congr 1
  apply toChunksAux_fuel u hu
  · simp only [List.length_drop, List.length_cons]
    omega
  · exact le_rfl

theorem bytesToConstraintField_cons (u : ℕ) (hu : 1 ≤ u) (b : ℕ) (t : List ℕ) :
    bytesToConstraintField (P := P) u (b :: t) =
      (chunkVal ((b :: t).take u) : ZMod P) ::
        bytesToConstraintField (P := P) u ((b :: t).drop u) := by
  unfold bytesToConstraintField
  rw [toChunks_cons u hu]
  rfl

/-- Packed byte sequences with equal field-element encodings agree up to
trailing zeros, provided each chunk value stays below the modulus. -/
theorem pack_eq_padding (u : ℕ) (hu : 1 ≤ u) (hP : 2 ^ (8 * u) ≤ P) :
    ∀ (c2 c1 : List ℕ), (∀ x ∈ c1, x < 256) → (∀ x ∈ c2, x < 256) →
      c1.length ≤ c2.length →
      bytesToConstraintField (P := P) u c1 = bytesToConstraintField (P := P) u c2 →
      c2 = c1 ++ List.replicate (c2.length - c1.length) 0 := by
  haveI : NeZero P := ⟨by
    have := pow_pos (show (0 : ℕ) < 2 by norm_num) (8 * u)
    omega⟩
  have hbound : ∀ (c : List ℕ), (∀ x ∈ c, x < 256) → chunkVal (c.take u) < P := by
    intro c hc
    calc chunkVal (c.take u) < 256 ^ (c.take u).length :=
          chunkVal_lt _ fun z hz => hc z (List.mem_of_mem_take hz)
      _ ≤ 256 ^ u := Nat.pow_le_pow_right (by norm_num) (by
          rw [List.length_take]
          omega)
      _ = 2 ^ (8 * u) := by
          rw [show (256 : ℕ) = 2 ^ 8 from rfl, ← pow_mul]
      _ ≤ P := hP
  suffices H : ∀ (N : ℕ) (c2 c1 : List ℕ), c2.length ≤ N →
      (∀ x ∈ c1, x < 256) → (∀ x ∈ c2, x < 256) → c1.length ≤ c2.length →
      bytesToConstraintField (P := P) u c1 = bytesToConstraintField (P := P) u c2 →
      c2 = c1 ++ List.replicate (c2.length - c1.length) 0 by
    exact fun c2 c1 h1 h2 h3 h4 => H c2.length c2 c1 le_rfl h1 h2 h3 h4
  intro N
  induction N with
  | zero =>
      intro c2 c1 hN _ _ hlen _
      have h2 : c2 = [] := List.length_eq_zero.mp (by omega)
      have h1 : c1 = [] := List.length_eq_zero.mp (by omega)
      subst h2
      subst h1
      simp
  | succ N ih =>
      intro c2 c1 hN ha hb hlen hv
      cases c1 with
      | nil =>
          cases c2 with
          | nil => simp
          | cons y ys =>
              rw [bytesToConstraintField_cons u hu] at hv
              exact absurd hv (by simp [bytesToConstraintField, toChunks, toChunksAux])
      | cons x xs =>
          cases c2 with
          | nil => simp at hlen
          | cons y ys =>
              rw [bytesToConstraintField_cons u hu, bytesToConstraintField_cons u hu] at hv
              injection hv with hhead htail
              have hvaleq : chunkVal ((x :: xs).take u) = chunkVal ((y :: ys).take u) := by
                have := congrArg ZMod.val hhead
                rwa [ZMod.val_cast_of_lt (hbound _ ha), ZMod.val_cast_of_lt (hbound _ hb)]
                  at this
              have htake := chunkVal_eq_padding ((x :: xs).take u) ((y :: ys).take u)
                (fun z hz => ha z (List.mem_of_mem_take hz))
                (fun z hz => hb z (List.mem_of_mem_take hz))
                (by
                  simp only [List.length_take, List.length_cons]
                  simp only [List.length_cons] at hlen
                  omega)
                hvaleq
              have hdrop := ih ((y :: ys).drop u) ((x :: xs).drop u)
                (by
                  simp only [List.length_drop, List.length_cons]
                  simp only [List.length_cons] at hN
                  omega)
                (fun z hz => ha z (List.mem_of_mem_drop hz))
                (fun z hz => hb z (List.mem_of_mem_drop hz))
                (by
                  simp only [List.length_drop, List.length_cons]
                  simp only [List.length_cons] at hlen
                  omega)
                htail
              have hsplit : y :: ys = (y :: ys).take u ++ (y :: ys).drop u :=
                (List.take_append_drop u (y :: ys)).symm
              rcases le_or_lt u (xs.length + 1) with hcase | hcase
              · have h1 : ((y :: ys).take u).length - ((x :: xs).take u).length = 0 := by
                  simp only [List.length_take, List.length_cons]
                  simp only [List.length_cons] at hlen
                  omega
                have h2 : ((y :: ys).drop u).length - ((x :: xs).drop u).length
                    = (y :: ys).length - (x :: xs).length := by
                  simp only [List.length_drop, List.length_cons]
                  simp only [List.length_cons] at hlen
                  omega
                rw [h1, List.replicate_zero, List.append_nil] at htake
                rw [h2] at hdrop
                conv_lhs => rw [hsplit]
                rw [htake, hdrop, ← List.append_assoc, List.take_append_drop]
              · have hxtake : (x :: xs).take u = x :: xs :=
                  List.take_of_length_le (by simp only [List.length_cons]; omega)
                have hxdrop : (x :: xs).drop u = [] :=
                  List.drop_eq_nil_of_le (by simp only [List.length_cons]; omega)
                rw [hxtake] at htake
                rw [hxdrop, List.nil_append] at hdrop
                conv_lhs => rw [hsplit]
                rw [htake, hdrop, List.append_assoc, ← List.replicate_add]
                congr 2
                simp only [List.length_take, List.length_drop, List.length_cons,
                  List.length_nil]
                simp only [List.length_cons] at hlen
                omega

/-! ### Claim theorems -/

/-- Claim C4, confirmed.  For dimension-coherent parameters and a state vector
of the right width, the imperative `permute` of constraints.rs:34-89 computes
exactly the round function as the specification words it: key_state and
key_injection both initialized to `initial_constant`, key_state added
element-wise into state, then for each `r` in `0 .. 2*rounds` the S-box layer
(`inv_alpha` for even `r`, `alpha` for odd `r`) followed by
`key_injection := constants_matrix · key_injection + constants_constant`,
`key_state := mds · key_state + key_injection`, and
`state := mds · state + key_state`. -/
theorem c4_theorem (pp : RescueSpongeParameters P) (st : List (ZMod P))
    (hw : WellFormedParams pp) (hst : st.length = pp.rate + pp.capacity) :
    permute pp st = specPermute pp st := by
  obtain ⟨hic, hcm, hcrows, hcc, hmds, hmrows⟩ := hw
  unfold permute specPermute
  rw [← zipWith_eq_range_map (· + ·) 0 0 st pp.initial_constant _ hst hic]
  rw [List.range_eq_range']
  rw [foldl_eq_specSubRounds pp _ hcm hcrows hcc hmds hmrows (2 * pp.rounds) 0 _ _ _ hic hic
    (by simp [hst, hic])]

/-- Witness for `c4_theorem` at `ppA` and the state `[4, 6]`. -/
theorem c4_witness :
    (WellFormedParams ppA ∧ ([4, 6] : List (ZMod 17)).length = ppA.rate + ppA.capacity) ∧
    permute ppA [4, 6] = specPermute ppA [4, 6] :=
  ⟨⟨by decide, by decide⟩, c4_theorem ppA [4, 6] (by decide) (by decide)⟩

/-- Claim C1, corrected.  On a fresh sponge, `squeeze_bytes(n)` returns
exactly `n` bytes, and `squeeze_bytes(n)` equals the first `n` bytes of
`squeeze_bytes(n+m)` on an identical fresh sponge.  The second half of the
original claim fails (see `c1_counterexample`): a following `squeeze_bytes(m)`
does not in general produce the next `m` bytes, because it restarts from the
next field element, discarding the unread bytes of the last element of the
first call. -/
theorem c1_theorem (pp : RescueSpongeParameters P) (n m : ℕ)
    (hr : 1 ≤ pp.rate) (hu : 1 ≤ capacityBits P / 8) :
    (squeeze_bytes pp n (newSponge pp)).1.length = n ∧
    (squeeze_bytes pp n (newSponge pp)).1 =
      ((squeeze_bytes pp (n + m) (newSponge pp)).1).take n := by
  have hperm_len : (permute pp (newSponge pp).state).length = pp.rate + pp.capacity :=
    permute_length ..
  set u := capacityBits P / 8 with hudef
  set X := permute pp (newSponge pp).state with hXdef
  have hE : ∀ k, (squeeze_field_elements pp k (newSponge pp)).1 =
      (squeeze_internal pp 0 k X).1 := fun k => rfl
  have hElen : ∀ k, (squeeze_internal pp 0 k X).1.length = k :=
    fun k => (squeeze_internal_length pp 0 k X hperm_len).1
  have hflen : ∀ k, (((squeeze_internal pp 0 k X).1.map (elemLowBytes u)).flatten).length
      = u * k := by
    intro k
    rw [flatten_map_length (elemLowBytes u) u (fun x => elemLowBytes_length u x), hElen]
  have hceil : ∀ k : ℕ, k ≤ u * ((k + u - 1) / u) := fun k => le_ceil_mul u k hu
  constructor
  · show (((squeeze_field_elements pp ((n + u - 1) / u) (newSponge pp)).1.map
      (elemLowBytes u)).flatten.take n).length = n
    rw [hE, List.length_take, hflen]
    have := hceil n
    omega
  · show ((squeeze_field_elements pp ((n + u - 1) / u) (newSponge pp)).1.map
        (elemLowBytes u)).flatten.take n =
      (((squeeze_field_elements pp ((n + m + u - 1) / u) (newSponge pp)).1.map
        (elemLowBytes u)).flatten.take (n + m)).take n
    rw [hE, hE, List.take_take, min_eq_left (by omega : n ≤ n + m)]
    rw [squeeze_internal_take_eq pp hr ((n + m + u - 1) / u) ((n + u - 1) / u) X
      (Nat.div_le_div_right (by omega)) hperm_len]
    rw [flatten_map_take (elemLowBytes u) u (fun x => elemLowBytes_length u x)
      ((n + u - 1) / u) ((squeeze_internal pp 0 ((n + m + u - 1) / u) X).1)]
    rw [List.take_take, min_eq_left (hceil n)]

/-- Claim C1 counterexample: over `ppB` (`usable_bytes = 2`), a fresh
`squeeze_bytes(1)` followed by `squeeze_bytes(1)` yields bytes `[2], [4]`,
while a fresh `squeeze_bytes(2)` yields `[2, 1]` — the second call's byte is
NOT the second byte of the combined squeeze. -/
theorem c1_counterexample :
    ¬ ((squeeze_bytes ppB 1 (newSponge ppB)).1 =
         ((squeeze_bytes ppB 2 (newSponge ppB)).1).take 1 ∧
       (squeeze_bytes ppB 1 ((squeeze_bytes ppB 1 (newSponge ppB)).2.1)).1 =
         ((squeeze_bytes ppB 2 (newSponge ppB)).1).drop 1) := by
  decide

/-- Witness for `c1_theorem` at `ppB`, `n = 3`, `m = 2`. -/
theorem c1_witness :
    (1 ≤ ppB.rate ∧ 1 ≤ capacityBits 65537 / 8) ∧
    (squeeze_bytes ppB 3 (newSponge ppB)).1.length = 3 ∧
    (squeeze_bytes ppB 3 (newSponge ppB)).1 =
      ((squeeze_bytes ppB (3 + 2) (newSponge ppB)).1).take 3 :=
  ⟨⟨by decide, by decide⟩, c1_theorem ppB 3 2 (by decide) (by decide)⟩

/-- Claim C2, corrected.  `squeeze_field_elements(0)` on a just-constructed
sponge returns the empty sequence, but — contrary to the claim — it performs
exactly one permutation (the absorb-to-squeeze mode switch at
constraints.rs:234-238) and leaves the sponge in `Squeezing { 0 }` with the
permuted state. -/
theorem c2_theorem (pp : RescueSpongeParameters P)
    (_h1 : 1 ≤ pp.rate) (_h2 : 1 ≤ pp.capacity) :
    squeeze_field_elements pp 0 (newSponge pp) =
      ([], ⟨permute pp (newSponge pp).state, .Squeezing 0⟩, 1) := by
  simp only [squeeze_field_elements, newSponge]
  rw [squeeze_internal_eq]
  simp

/-- Claim C2 counterexample: with `rate = capacity = 1`, squeezing zero
elements from a just-constructed sponge does NOT leave the sponge unchanged
without permuting — the permutation counter is 1 and both mode and state
change. -/
theorem c2_counterexample :
    ¬ ((squeeze_field_elements ppA 0 (newSponge ppA)).2.2 = 0 ∧
       (squeeze_field_elements ppA 0 (newSponge ppA)).2.1.mode = (newSponge ppA).mode ∧
       (squeeze_field_elements ppA 0 (newSponge ppA)).2.1.state = (newSponge ppA).state) := by
  decide

/-- Witness for `c2_theorem` at the concrete parameter set `ppA`. -/
theorem c2_witness :
    (1 ≤ ppA.rate ∧ 1 ≤ ppA.capacity) ∧
    squeeze_field_elements ppA 0 (newSponge ppA) =
      ([], ⟨permute ppA (newSponge ppA).state, .Squeezing 0⟩, 1) :=
  ⟨⟨by decide, by decide⟩, c2_theorem ppA (by decide) (by decide)⟩

/-- Claim C3, corrected.  When a squeeze requests `n` elements starting at
cursor `idx` with `n > rate - idx`, the engine reads the `rate - idx`
available elements and then permutes iff the requested output length `n`
differs from `rate` (constraints.rs:141) — not "unless exactly rate elements
were just produced" — and the remainder is always read starting at cursor 0. -/
theorem c3_theorem (pp : RescueSpongeParameters P) (idx n : ℕ) (st : List (ZMod P))
    (h1 : idx < pp.rate) (h2 : pp.rate - idx < n) :
    squeeze_internal pp idx n st =
      (let st2 := if n = pp.rate then st else permute pp st
       let r := squeeze_internal pp 0 (n - (pp.rate - idx)) st2
       ((st.drop idx).take (pp.rate - idx) ++ r.1, r.2.1, r.2.2.1,
        r.2.2.2 + if n = pp.rate then 0 else 1)) := by
  rw [squeeze_internal_eq, if_neg (by omega : ¬ idx + n ≤ pp.rate),
    if_neg (by omega : ¬ pp.rate - idx = 0)]

/-- Claim C3 counterexample: with `rate = 2`, a squeeze of `n = 2` elements
beginning at cursor `idx = 1` requests more than the `rate - idx = 1`
available element and only `1 ≠ rate` elements are produced before the
remainder, yet the engine performs zero permutations (because the requested
output length equals `rate`), reading the remainder from the unpermuted state
at cursor 0. -/
theorem c3_counterexample :
    ppC.rate - 1 < 2 ∧ ppC.rate - 1 ≠ ppC.rate ∧
    (squeeze_internal ppC 1 2 ([5, 7, 11] : List (ZMod 17))).2.2.2 = 0 ∧
    (squeeze_internal ppC 1 2 ([5, 7, 11] : List (ZMod 17))).1 = [7, 5] := by
  decide

/-- Witness for `c3_theorem` at `ppA`, `idx = 0`, `n = 2`. -/
theorem c3_witness :
    (0 < ppA.rate ∧ ppA.rate - 0 < 2) ∧
    squeeze_internal ppA 0 2 ([4, 6] : List (ZMod 17)) =
      (let st2 := if 2 = ppA.rate then ([4, 6] : List (ZMod 17)) else permute ppA [4, 6]
       let r := squeeze_internal ppA 0 (2 - (ppA.rate - 0)) st2
       ((([4, 6] : List (ZMod 17)).drop 0).take (ppA.rate - 0) ++ r.1, r.2.1, r.2.2.1,
        r.2.2.2 + if 2 = ppA.rate then 0 else 1)) :=
  ⟨⟨by decide, by decide⟩, c3_theorem ppA 0 2 [4, 6] (by decide) (by decide)⟩

/-- Claim C5, confirmed.  The batch canonicalization of bytes equals the
byte-sequence canonicalization of (length prefix ++ batch bytes) processed as
one combined byte sequence; the length prefix is the fixed-width (8-byte)
little-endian encoding of the element count, and for counts below `2^64` it
decodes back to the count. -/
theorem c5_theorem (u : ℕ) (batch : List ℕ) :
    uint8BatchToSpongeFieldElements (P := P) u batch = specBatchCanonicalization u batch ∧
    (u64LeBytes batch.length).length = 8 ∧
    (batch.length < 2 ^ 64 → chunkVal (u64LeBytes batch.length) = batch.length) := by
  refine ⟨rfl, u64LeBytes_length _, fun h => ?_⟩
  rw [chunkVal_u64LeBytes, Nat.mod_eq_of_lt h]

/-- Witness for `c5_theorem` at `u = 1`, `P = 257`, batch `[7, 9]`. -/
theorem c5_witness :
    (([7, 9] : List ℕ).length < 2 ^ 64) ∧
    uint8BatchToSpongeFieldElements (P := 257) 1 [7, 9] = specBatchCanonicalization 1 [7, 9] ∧
    chunkVal (u64LeBytes ([7, 9] : List ℕ).length) = ([7, 9] : List ℕ).length :=
  ⟨by decide, (c5_theorem 1 [7, 9]).1, (c5_theorem (P := 257) 1 [7, 9]).2.2 (by decide)⟩

/-- Claim C8, confirmed for the two cited encodings (the byte-batch and
`Option` instances of absorbable.rs).  Byte batches: whenever every chunk
value stays below the modulus (`2^(8u) ≤ P`) and the batch lengths are below
the `u64` wrap-around, distinct batches — including batches of different
lengths — canonicalize to distinct field-element sequences, thanks to the
length prefix.  Options: the presence flag makes the encoding injective
whenever the inner encoding is. -/
theorem c8_theorem (u : ℕ) (hu : 1 ≤ u) (hP : 2 ^ (8 * u) ≤ P) :
    (∀ bs1 bs2 : List ℕ, (∀ b ∈ bs1, b < 256) → (∀ b ∈ bs2, b < 256) →
      bs1.length < 2 ^ 64 → bs2.length < 2 ^ 64 →
      uint8BatchToSpongeFieldElements (P := P) u bs1 =
        uint8BatchToSpongeFieldElements (P := P) u bs2 → bs1 = bs2) ∧
    (∀ {α : Type} (f : α → List (ZMod P)), Function.Injective f →
      Function.Injective (optionToSpongeFieldElements f)) := by
  have hPbig : 256 ≤ P := by
    have h256 : (256 : ℕ) ≤ 2 ^ (8 * u) := by
      calc (256 : ℕ) = 2 ^ 8 := rfl
        _ ≤ 2 ^ (8 * u) := Nat.pow_le_pow_right (by norm_num) (by omega)
    omega
  have hmem64 : ∀ (L : ℕ) (bs : List ℕ), (∀ b ∈ bs, b < 256) →
      ∀ x ∈ u64LeBytes L ++ bs, x < 256 := by
    intro L bs hbs x hx
    rcases List.mem_append.mp hx with hx | hx
    · simp only [u64LeBytes, List.mem_map, List.mem_range] at hx
      obtain ⟨i, _, rfl⟩ := hx
      exact Nat.mod_lt _ (by norm_num)
    · exact hbs x hx
  have main : ∀ bs1 bs2 : List ℕ, (∀ b ∈ bs1, b < 256) → (∀ b ∈ bs2, b < 256) →
      bs1.length < 2 ^ 64 → bs2.length < 2 ^ 64 →
      (u64LeBytes bs1.length ++ bs1).length ≤ (u64LeBytes bs2.length ++ bs2).length →
      uint8BatchToSpongeFieldElements (P := P) u bs1 =
        uint8BatchToSpongeFieldElements (P := P) u bs2 → bs1 = bs2 := by
    intro bs1 bs2 h1 h2 hl1 hl2 hc hv
    have hpad := pack_eq_padding u hu hP (u64LeBytes bs2.length ++ bs2)
      (u64LeBytes bs1.length ++ bs1) (hmem64 _ _ h1) (hmem64 _ _ h2) hc hv
    have t1 : (u64LeBytes bs2.length ++ bs2).take 8 = u64LeBytes bs2.length := by
      rw [List.take_append_of_le_length (by rw [u64LeBytes_length])]
      exact List.take_of_length_le (by rw [u64LeBytes_length])
    have t2 : ((u64LeBytes bs1.length ++ bs1)
        ++ List.replicate ((u64LeBytes bs2.length ++ bs2).length
            - (u64LeBytes bs1.length ++ bs1).length) 0).take 8
        = u64LeBytes bs1.length := by
      rw [List.take_append_of_le_length (by
        simp only [List.length_append, u64LeBytes_length]
        omega)]
      rw [List.take_append_of_le_length (by rw [u64LeBytes_length])]
      exact List.take_of_length_le (by rw [u64LeBytes_length])
    rw [hpad, t2] at t1
    have hleneq : bs1.length = bs2.length := by
      have hcv := congrArg chunkVal t1
      rw [chunkVal_u64LeBytes, chunkVal_u64LeBytes] at hcv
      rw [Nat.mod_eq_of_lt hl1, Nat.mod_eq_of_lt hl2] at hcv
      omega
    have hz : (u64LeBytes bs2.length ++ bs2).length
        - (u64LeBytes bs1.length ++ bs1).length = 0 := by
      simp only [List.length_append, u64LeBytes_length]
      omega
    rw [hz, List.replicate_zero, List.append_nil] at hpad
    have := List.append_inj hpad.symm (by rw [u64LeBytes_length, u64LeBytes_length])
    exact this.2
  constructor
  · intro bs1 bs2 h1 h2 hl1 hl2 hv
    rcases le_total (u64LeBytes bs1.length ++ bs1).length
        (u64LeBytes bs2.length ++ bs2).length with hc | hc
    · exact main bs1 bs2 h1 h2 hl1 hl2 hc hv
    · exact (main bs2 bs1 h2 h1 hl2 hl1 hc hv.symm).symm
  · intro α f hf o1 o2 hv
    haveI : Fact (1 < P) := ⟨by omega⟩
    cases o1 with
    | none =>
        cases o2 with
        | none => rfl
        | some b =>
            exfalso
            have := congrArg (fun l => l.headI) hv
            simp [optionToSpongeFieldElements] at this
    | some a =>
        cases o2 with
        | none =>
            exfalso
            have := congrArg (fun l => l.headI) hv
            simp [optionToSpongeFieldElements] at this
        | some b =>
            have htl : f a = f b := by
              have := congrArg List.tail hv
              simpa [optionToSpongeFieldElements] using this
            exact congrArg some (hf htl)

/-- Witness for `c8_theorem` at `u = 2`, `P = 65537`: the byte part applied to
the batch `[3, 5]` against itself, and the option part applied to the
singleton-list encoding at `some 7`. -/
theorem c8_witness :
    ((1 : ℕ) ≤ 2 ∧ 2 ^ (8 * 2) ≤ 65537) ∧
    ([3, 5] : List ℕ) = [3, 5] ∧
    (some (7 : ZMod 65537)) = some 7 :=
  ⟨⟨by decide, by decide⟩,
   (c8_theorem (P := 65537) 2 (by decide) (by decide)).1 [3, 5] [3, 5]
     (by decide) (by decide) (by decide) (by decide) rfl,
   (c8_theorem (P := 65537) 2 (by decide) (by decide)).2
     (fun x => [x]) (fun a b h => by simpa using h) rfl⟩

/-- Claim C6, confirmed.  Absorbing a canonical form of length `2*rate + 1`
into a sponge in `Absorbing { 0 }` performs exactly two permutations, and the
final mode is `Absorbing { 1 }`. -/
theorem c6_theorem (pp : RescueSpongeParameters P) (st input : List (ZMod P))
    (h1 : 1 ≤ pp.rate) (h2 : input.length = 2 * pp.rate + 1) :
    (absorb pp input ⟨st, .Absorbing 0⟩).2 = 2 ∧
    (absorb pp input ⟨st, .Absorbing 0⟩).1.mode = .Absorbing 1 := by
  have hne : input ≠ [] := by
    intro h
    rw [h] at h2
    simp at h2
  simp only [absorb, if_neg hne]
  rw [if_neg (by omega : ¬ (0 : ℕ) = pp.rate)]
  rw [absorb_internal_eq, if_neg (by omega : ¬ 0 + input.length ≤ pp.rate),
    if_neg (by omega : ¬ pp.rate - 0 = 0)]
  simp only [Nat.sub_zero]
  have hlen2 : (input.drop pp.rate).length = pp.rate + 1 := by
    simp only [List.length_drop]
    omega
  rw [absorb_internal_eq, if_neg (by omega : ¬ 0 + (input.drop pp.rate).length ≤ pp.rate),
    if_neg (by omega : ¬ pp.rate - 0 = 0)]
  simp only [Nat.sub_zero]
  have hlen3 : ((input.drop pp.rate).drop pp.rate).length = 1 := by
    simp only [List.length_drop]
    omega
  rw [absorb_internal_eq,
    if_pos (by omega : 0 + ((input.drop pp.rate).drop pp.rate).length ≤ pp.rate)]
  rw [hlen3]
  exact ⟨rfl, rfl⟩

/-- Witness for `c6_theorem` at `ppA` with a length-3 input. -/
theorem c6_witness :
    (1 ≤ ppA.rate ∧ ([3, 5, 7] : List (ZMod 17)).length = 2 * ppA.rate + 1) ∧
    (absorb ppA [3, 5, 7] ⟨[4, 6], .Absorbing 0⟩).2 = 2 ∧
    (absorb ppA [3, 5, 7] ⟨[4, 6], .Absorbing 0⟩).1.mode = .Absorbing 1 :=
  ⟨⟨by decide, by decide⟩, c6_theorem ppA [4, 6] [3, 5, 7] (by decide) (by decide)⟩

/-- Claim C7, confirmed.  Absorbing a non-empty canonical form into a sponge
in `Squeezing` mode — at any squeeze cursor — permutes exactly once before the
data is folded in starting at absorb cursor 0; if the input fits within the
rate, that single permutation is the only one. -/
theorem c7_theorem (pp : RescueSpongeParameters P) (st : List (ZMod P)) (k : ℕ)
    (input : List (ZMod P)) (h : input ≠ []) :
    absorb pp input ⟨st, .Squeezing k⟩ =
      (let r := absorb_internal pp 0 input (permute pp st)
       (⟨r.1, r.2.1⟩, r.2.2 + 1)) ∧
    (input.length ≤ pp.rate →
      absorb pp input ⟨st, .Squeezing k⟩ =
        (⟨addIntoState (permute pp st) 0 input, .Absorbing input.length⟩, 1)) := by
  constructor
  · simp only [absorb, if_neg h]
  · intro hle
    simp only [absorb, if_neg h]
    rw [absorb_internal_eq, if_pos (by omega : 0 + input.length ≤ pp.rate)]
    simp

/-- Witness for `c7_theorem` at `ppA`, squeeze cursor 1, input `[3]`. -/
theorem c7_witness :
    ([3] : List (ZMod 17)) ≠ [] ∧
    absorb ppA [3] ⟨[4, 6], .Squeezing 1⟩ =
      (let r := absorb_internal ppA 0 [3] (permute ppA [4, 6])
       (⟨r.1, r.2.1⟩, r.2.2 + 1)) ∧
    (([3] : List (ZMod 17)).length ≤ ppA.rate →
      absorb ppA [3] ⟨[4, 6], .Squeezing 1⟩ =
        (⟨addIntoState (permute ppA [4, 6]) 0 [3], .Absorbing ([3] : List (ZMod 17)).length⟩, 1)) :=
  ⟨by decide, c7_theorem ppA [4, 6] 1 [3] (by decide)⟩

/-- Claim C9, confirmed.  From the initial mode `Absorbing { 0 }`, every
absorb and squeeze keeps the mode cursor within `[0, rate]`; and whenever the
cursor has reached `rate`, the engine permutes (and restarts the cursor at 0)
before any further absorb or squeeze progress. -/
theorem c9_theorem :
    (∀ (pp : RescueSpongeParameters P), (newSponge pp).mode = .Absorbing 0) ∧
    (∀ (pp : RescueSpongeParameters P) (input : List (ZMod P)) (s : RescueSpongeVar P),
      s.mode.index ≤ pp.rate → (absorb pp input s).1.mode.index ≤ pp.rate) ∧
    (∀ (pp : RescueSpongeParameters P) (n : ℕ) (s : RescueSpongeVar P),
      (squeeze_field_elements pp n s).2.1.mode.index ≤ pp.rate) ∧
    (∀ (pp : RescueSpongeParameters P) (st input : List (ZMod P)), input ≠ [] →
      absorb pp input ⟨st, .Absorbing pp.rate⟩ =
        (let r := absorb_internal pp 0 input (permute pp st)
         (⟨r.1, r.2.1⟩, r.2.2 + 1))) ∧
    (∀ (pp : RescueSpongeParameters P) (n : ℕ) (st : List (ZMod P)),
      squeeze_field_elements pp n ⟨st, .Squeezing pp.rate⟩ =
        (let r := squeeze_internal pp 0 n (permute pp st)
         (r.1, ⟨r.2.1, r.2.2.1⟩, r.2.2.2 + 1))) := by
  refine ⟨fun pp => rfl, ?_, ?_, ?_, ?_⟩
  · intro pp input s hs
    by_cases hne : input = []
    · simpa [absorb, hne] using hs
    · cases hm : s.mode with
      | Absorbing idx =>
          simp only [absorb, if_neg hne, hm]
          by_cases hidx : idx = pp.rate
          · simp only [if_pos hidx]
            exact absorbInternalAux_index ..
          · simp only [if_neg hidx]
            exact absorbInternalAux_index ..
      | Squeezing idx =>
          simp only [absorb, if_neg hne, hm]
          exact absorbInternalAux_index ..
  · intro pp n s
    cases hm : s.mode with
    | Absorbing idx =>
        simp only [squeeze_field_elements, hm]
        exact squeezeInternalAux_index ..
    | Squeezing idx =>
        simp only [squeeze_field_elements, hm]
        by_cases hidx : idx = pp.rate
        · simp only [if_pos hidx]
          exact squeezeInternalAux_index ..
        · simp only [if_neg hidx]
          exact squeezeInternalAux_index ..
  · intro pp st input hne
    simp [absorb, if_neg hne]
  · intro pp n st
    simp [squeeze_field_elements]

/-- Witness for `c9_theorem`: all five conjuncts instantiated at concrete
inputs over `ppA`. -/
theorem c9_witness :
    (newSponge ppA).mode = .Absorbing 0 ∧
    ((newSponge ppA).mode.index ≤ ppA.rate ∧
      (absorb ppA [3] (newSponge ppA)).1.mode.index ≤ ppA.rate) ∧
    (squeeze_field_elements ppA 2 (newSponge ppA)).2.1.mode.index ≤ ppA.rate ∧
    (([3] : List (ZMod 17)) ≠ [] ∧
      absorb ppA [3] ⟨[4, 6], .Absorbing ppA.rate⟩ =
        (let r := absorb_internal ppA 0 [3] (permute ppA [4, 6])
         (⟨r.1, r.2.1⟩, r.2.2 + 1))) ∧
    squeeze_field_elements ppA 2 ⟨[4, 6], .Squeezing ppA.rate⟩ =
      (let r := squeeze_internal ppA 0 2 (permute ppA [4, 6])
       (r.1, ⟨r.2.1, r.2.2.1⟩, r.2.2.2 + 1)) :=
  ⟨c9_theorem.1 ppA,
   ⟨by decide, c9_theorem.2.1 ppA [3] (newSponge ppA) (by decide)⟩,
   c9_theorem.2.2.1 ppA 2 (newSponge ppA),
   ⟨by decide, c9_theorem.2.2.2.1 ppA [4, 6] [3] (by decide)⟩,
   c9_theorem.2.2.2.2 ppA 2 [4, 6]⟩

/-- Claim C10, confirmed.  A `squeeze_field_elements` call modifies the state
only through the permutations it performs: the final state vector is the
permutation iterated exactly permutation-count many times on the initial
state vector — the rate positions read out are never zeroed or overwritten. -/
theorem c10_theorem (pp : RescueSpongeParameters P) (n : ℕ) (s : RescueSpongeVar P) :
    (squeeze_field_elements pp n s).2.1.state =
      (permute pp)^[(squeeze_field_elements pp n s).2.2] s.state := by
  cases hm : s.mode with
  | Absorbing idx =>
      simp only [squeeze_field_elements, hm]
      rw [squeeze_internal_state, Function.iterate_succ_apply]
  | Squeezing idx =>
      by_cases hidx : idx = pp.rate
      · simp only [squeeze_field_elements, hm, if_pos hidx]
        rw [squeeze_internal_state, Function.iterate_succ_apply]
      · simp only [squeeze_field_elements, hm, if_neg hidx]
        exact squeeze_internal_state ..

end Rescue
